import Mathlib

/-!
Verification of `calibrate.py` (radar-to-lidar extrinsic calibration).

This file gives a shallow embedding of the numeric core of the script —
the point-cloud rasterizers, the yaw rotation matrix builder, the
phase-correlation (Fourier) registration, the closest-frame lookup, the
rotation folding, and the final sigma-clipped aggregation — and proves
properties of the embedded definitions.

Conventions used throughout the embedding:
* Python/numpy floating point is idealised as exact arithmetic (`ℚ` where
  the source only uses field operations and comparisons, `ℝ` where it
  uses `sqrt`, `arctan2`, `π`, `cos`/`sin` or the FFT).
* `int(q)` (Python truncation toward zero) is embedded explicitly as
  `truncQ` / `truncR`.
* An IEEE NaN produced by `0/0`, and a Python exception (assertion error,
  name error, index error), are both embedded as `Option.none` of the
  corresponding result type, since either aborts the computation of the
  surrounding pipeline.
-/

namespace Calibrate

/-! ## Robust aggregation of rotations (calibrate.py lines 190-192)

The script ends with

  rotations = np.array(rotations)
  rotation = np.mean(rotations[np.abs(rotations - rotation.mean()) < 3 * rotations.std()])

Note that the clipping centre is `rotation.mean()` where `rotation` is the
*scalar* holding the **last** frame's per-frame estimate (`.mean()` of a
numpy scalar is the scalar itself), not `rotations.mean()`.

`np.std` is the population standard deviation `sqrt(npVar)`.  Since both
sides of the comparison `|x - c| < 3 * std` are nonnegative, it is
equivalent to `(x - c)^2 < 9 * npVar`, which lets the embedding stay in
`ℚ` (exact and executable) instead of introducing `Real.sqrt`. -/

/-- Embeds `np.mean` on a 1-D array (division by zero for the empty list,
which numpy reports as NaN; no theorem below uses the empty case). -/
def npMean (l : List ℚ) : ℚ := l.sum / l.length

/-- Embeds `np.var` (population variance, the square of `np.std`). -/
def npVar (l : List ℚ) : ℚ :=
  ((l.map (fun x => (x - npMean l) ^ 2)).sum) / l.length

/-- Embeds line 191 of `calibrate.py`:
`np.mean(rotations[np.abs(rotations - rotation.mean()) < 3 * rotations.std()])`.
`lastRotation` is the value of the scalar variable `rotation` after the
frame loop, i.e. the last per-frame estimate.  The filter condition
`|x - lastRotation| < 3 * std` is written in the equivalent squared form. -/
def aggregate_rotation (rotations : List ℚ) (lastRotation : ℚ) : ℚ :=
  npMean (rotations.filter
    (fun x => decide ((x - lastRotation) ^ 2 < 9 * npVar rotations)))

/-- Sigma clipping as the specification describes it: recompute the mean
using only samples within 3 standard deviations of the mean of the whole
list.  Modelled from the spec for comparison with `aggregate_rotation`. -/
def aggregate_rotation_spec (rotations : List ℚ) : ℚ :=
  npMean (rotations.filter
    (fun x => decide ((x - npMean rotations) ^ 2 < 9 * npVar rotations)))

/-- C1: the list `[2,0,0,0,0,0,0,-2]` (last per-frame estimate `-2`) has
mean `0`, population std `1`, and every sample within `2 < 3` standard
deviations of the mean, so the claimed clipped mean is the plain mean `0`
— but the code clips around the last estimate `-2`, discards the in-range
sample `2`, and returns `-2/7`. -/
theorem aggregate_rotation_uses_last_estimate :
    npMean [2, 0, 0, 0, 0, 0, 0, -2] = 0 ∧
    npVar [2, 0, 0, 0, 0, 0, 0, -2] = 1 ∧
    (∀ x ∈ ([2, 0, 0, 0, 0, 0, 0, -2] : List ℚ),
      (x - npMean [2, 0, 0, 0, 0, 0, 0, -2]) ^ 2 <
        9 * npVar [2, 0, 0, 0, 0, 0, 0, -2]) ∧
    aggregate_rotation [2, 0, 0, 0, 0, 0, 0, -2] (-2) = -2 / 7 ∧
    aggregate_rotation [2, 0, 0, 0, 0, 0, 0, -2] (-2) ≠
      npMean [2, 0, 0, 0, 0, 0, 0, -2] ∧
    aggregate_rotation_spec [2, 0, 0, 0, 0, 0, 0, -2] = 0 := by
  refine ⟨by norm_num [npMean], by norm_num [npVar, npMean],
    by norm_num [npVar, npMean],
    by norm_num [aggregate_rotation, npMean, npVar, List.filter],
    by norm_num [aggregate_rotation, npMean, npVar, List.filter],
    by norm_num [aggregate_rotation_spec, npMean, npVar, List.filter]⟩

/-! ## Cartesian rasterizer (calibrate.py lines 30-44)

`lidar_to_cartesian_image(pc, cart_pixel_width, cart_resolution)` builds a
top-down image from a 3×N point cloud.  The cloud is embedded as a list of
`(x, y, z)` triples (the columns of the array), the image as a total
function `ℤ → ℤ → ℚ` that is `0` outside the written cells — exactly
`np.zeros` followed by the loop's assignments. -/

/-- Embeds Python `int(q)`: truncation toward zero. -/
def truncQ (q : ℚ) : ℤ := if q < 0 then -⌊-q⌋ else ⌊q⌋

/-- Evaluates `truncQ` on a nonnegative value from floor bounds. -/
theorem truncQ_eq (q : ℚ) (n : ℤ) (h0 : 0 ≤ n) (h1 : (n : ℚ) ≤ q)
    (h2 : q < n + 1) : truncQ q = n := by
  have hq : ¬q < 0 := not_lt.2 (le_trans (by exact_mod_cast h0) h1)
  rw [truncQ, if_neg hq, Int.floor_eq_iff]
  exact ⟨h1, by exact_mod_cast h2⟩

/-- Embeds lines 32-35: `cart_min_range` from the pixel width parity. -/
def cart_min_range (w : ℕ) (res : ℚ) : ℚ :=
  if w % 2 = 0 then ((w : ℚ) / 2 - 1 / 2) * res else ((w / 2 : ℕ) : ℚ) * res

/-- Embeds one iteration of the loop in lines 37-43: skip the point when
its z-coordinate is outside `[0, 0.5]`, otherwise compute the column
`u` from y and the row `v` from x and write 255 at `img[v, u]` when both
indices are strictly inside `(0, w)`. -/
def cartStep (w : ℕ) (res : ℚ) (img : ℤ → ℤ → ℚ) (p : ℚ × ℚ × ℚ) :
    ℤ → ℤ → ℚ :=
  if p.2.2 < -0 ∨ p.2.2 > 1 / 2 then img
  else
    let u := truncQ ((cart_min_range w res - p.2.1) / res)
    let v := truncQ ((cart_min_range w res - p.1) / res)
    if 0 < u ∧ u < (w : ℤ) ∧ 0 < v ∧ v < (w : ℤ) then
      fun i j => if i = v ∧ j = u then 255 else img i j
    else img

/-- Embeds `lidar_to_cartesian_image` (lines 31-44): fold the per-point
step over the cloud starting from the all-zero image. -/
def lidar_to_cartesian_image (pc : List (ℚ × ℚ × ℚ)) (w : ℕ) (res : ℚ) :
    ℤ → ℤ → ℚ :=
  pc.foldl (cartStep w res) fun _ _ => 0

/-- C2 counterexample: rasterizing the single point `(1, 0, 0)` with
`resolution = 0.5`, `pixelWidth = 10` leaves the cell at row 4, column 2
at intensity 0 — the code writes `cart_img[v, u]` with the row `v`
computed from x and the column `u` from y, so the claimed cell (4, 2) is
the transpose of the one actually written. -/
theorem cartesian_single_point_row4_col2_is_zero :
    lidar_to_cartesian_image [(1, 0, 0)] 10 (1 / 2) 4 2 = 0 := by
  have hmr : cart_min_range 10 (1 / 2) = 9 / 4 := by norm_num [cart_min_range]
  have hu : truncQ (9 / 2 : ℚ) = 4 :=
    truncQ_eq _ 4 (by norm_num) (by norm_num) (by norm_num)
  have hv : truncQ (5 / 2 : ℚ) = 2 :=
    truncQ_eq _ 2 (by norm_num) (by norm_num) (by norm_num)
  simp only [lidar_to_cartesian_image, List.foldl, cartStep]
  norm_num [hmr, hu, hv]

/-- C2 amended: rasterizing the single point `(1, 0, 0)` with
`resolution = 0.5`, `pixelWidth = 10` produces the image whose only
nonzero cell is intensity 255 at row 2 (from `floor((2.25-1.0)/0.5)`,
the row index coming from x) and column 4 (from `floor((2.25-0.0)/0.5)`,
the column index coming from y); every other cell is 0. -/
theorem cartesian_single_point_image :
    lidar_to_cartesian_image [(1, 0, 0)] 10 (1 / 2) =
      fun v u => if v = 2 ∧ u = 4 then (255 : ℚ) else 0 := by
  have hmr : cart_min_range 10 (1 / 2) = 9 / 4 := by norm_num [cart_min_range]
  have hu : truncQ (9 / 2 : ℚ) = 4 :=
    truncQ_eq _ 4 (by norm_num) (by norm_num) (by norm_num)
  have hv : truncQ (5 / 2 : ℚ) = 2 :=
    truncQ_eq _ 2 (by norm_num) (by norm_num) (by norm_num)
  funext i j
  simp only [lidar_to_cartesian_image, List.foldl, cartStep]
  norm_num [hmr, hu, hv]

/-! ## Polar rasterizer (calibrate.py lines 46-61)

The body of `lidar_to_polar_image` never reads the coordinates of its
parameter `pc`: every `x[...]` inside the loop resolves, by Python
scoping, to the module-level variable `x`, so `pc` only contributes its
column count as the loop bound `pc.shape[1]`.  The embedding therefore
takes the global `x` as an explicit `Option` (to model the name being
absent from scope) next to the `pc` parameter.

Python failure modes embedded as `none`:
* `globalX = none` with a nonempty `pc`: the first loop iteration raises
  `NameError` (with an empty `pc` the loop body never runs, the global is
  never read, and the flipped all-zero image is returned);
* `pc` having more columns than the global `x`: `IndexError` at the first
  out-of-range access.

The square root, `arctan2` and the floors force this section into `ℝ`. -/

/-- Embeds Python `int(r)` on a real: truncation toward zero. -/
noncomputable def truncR (r : ℝ) : ℤ := if r < 0 then -⌊-r⌋ else ⌊r⌋

/-- Evaluates `truncR` on a nonnegative value from floor bounds. -/
theorem truncR_eq (r : ℝ) (n : ℤ) (h0 : 0 ≤ n) (h1 : (n : ℝ) ≤ r)
    (h2 : r < n + 1) : truncR r = n := by
  have hq : ¬r < 0 := not_lt.2 (le_trans (by exact_mod_cast h0) h1)
  rw [truncR, if_neg hq, Int.floor_eq_iff]
  exact ⟨h1, by exact_mod_cast h2⟩

/-- Embeds `np.arctan2 y x` as the argument of the complex number
`x + y*I`, which matches the `atan2` convention (range `(-π, π]`,
`arctan2 0 0 = 0`). -/
noncomputable def arctan2 (y x : ℝ) : ℝ := Complex.arg ⟨x, y⟩

/-- Embeds line 52: the range of a point, `sqrt(x**2 + y**2)`. -/
noncomputable def pointRange (p : ℝ × ℝ × ℝ) : ℝ :=
  Real.sqrt (p.1 ^ 2 + p.2.1 ^ 2)

/-- Embeds lines 53-55: `arctan2(y, x)` normalized into `[0, 2π)`. -/
noncomputable def pointAzimuth (p : ℝ × ℝ × ℝ) : ℝ :=
  if arctan2 p.2.1 p.1 < 0 then arctan2 p.2.1 p.1 + 2 * Real.pi
  else arctan2 p.2.1 p.1

/-- Embeds line 56: `int(r / range_resolution)`. -/
noncomputable def range_bin_of (p : ℝ × ℝ × ℝ) (rres : ℝ) : ℤ :=
  truncR (pointRange p / rres)

/-- Embeds line 57: `int(theta / azimuth_resolution)`. -/
noncomputable def azimuth_bin_of (p : ℝ × ℝ × ℝ) (ares : ℝ) : ℤ :=
  truncR (pointAzimuth p / ares)

/-- Embeds one iteration of the loop in lines 49-59, applied to the point
the iteration reads from the global `x`. -/
noncomputable def polarStep (rres ares : ℝ) (rbins abins : ℕ)
    (img : ℤ → ℤ → ℝ) (p : ℝ × ℝ × ℝ) : ℤ → ℤ → ℝ :=
  if p.2.2 < -0 ∨ p.2.2 > 1 / 2 then img
  else if 0 < range_bin_of p rres ∧ range_bin_of p rres < (rbins : ℤ) ∧
          0 < azimuth_bin_of p ares ∧ azimuth_bin_of p ares < (abins : ℤ) then
    fun i j =>
      if i = azimuth_bin_of p ares ∧ j = range_bin_of p rres then 255
      else img i j
  else img

/-- The pre-flip polar accumulation over a list of points. -/
noncomputable def polarFill (rres ares : ℝ) (rbins abins : ℕ)
    (l : List (ℝ × ℝ × ℝ)) : ℤ → ℤ → ℝ :=
  l.foldl (polarStep rres ares rbins abins) fun _ _ => 0

/-- Embeds line 60, `np.flip(polar, axis=0)`: for rows `0 ≤ i < abins`
the output row `i` is the input row `abins - 1 - i`. -/
noncomputable def npFlip0 (abins : ℕ) (img : ℤ → ℤ → ℝ) : ℤ → ℤ → ℝ :=
  fun i j => img ((abins : ℤ) - 1 - i) j

/-- Embeds `lidar_to_polar_image(pc, ...)` run with the module-level
variable `x` bound to `globalX` (or absent when `globalX = none`).  The
loop processes the first `pc.length` columns of the global `x`. -/
noncomputable def lidar_to_polar_image (globalX : Option (List (ℝ × ℝ × ℝ)))
    (pc : List (ℝ × ℝ × ℝ)) (rres ares : ℝ) (rbins abins : ℕ) :
    Option (ℤ → ℤ → ℝ) :=
  match globalX with
  | none => if pc.length = 0 then some (npFlip0 abins fun _ _ => 0) else none
  | some x =>
      if pc.length ≤ x.length then
        some (npFlip0 abins (polarFill rres ares rbins abins (x.take pc.length)))
      else none

/-- C3 counterexample: with no global `x` in scope and a zero-column
`pc`, the loop body never executes, so the global is never read and the
function returns the (all-zero) image instead of failing with a name
error — the claim's unconditional failure clause is false. -/
theorem polar_no_global_empty_pc_returns :
    lidar_to_polar_image none [] 1 1 4 4 ≠ none := by
  simp [lidar_to_polar_image]

/-- C3 amended: the output of `lidar_to_polar_image` does not depend on
the coordinate values of `pc` — for a fixed global `x`, any two point
clouds with the same column count yield identical results — and when no
global `x` is in scope the call fails with a name error provided `pc` has
at least one column (with zero columns the global is never read and the
flipped all-zero image is returned). -/
theorem polar_image_ignores_pc_coordinates :
    (∀ (globalX : Option (List (ℝ × ℝ × ℝ))) (pc₁ pc₂ : List (ℝ × ℝ × ℝ))
      (rres ares : ℝ) (rbins abins : ℕ), pc₁.length = pc₂.length →
      lidar_to_polar_image globalX pc₁ rres ares rbins abins =
        lidar_to_polar_image globalX pc₂ rres ares rbins abins) ∧
    (∀ (pc : List (ℝ × ℝ × ℝ)) (rres ares : ℝ) (rbins abins : ℕ),
      pc ≠ [] →
      lidar_to_polar_image none pc rres ares rbins abins = none) := by
  constructor
  · intro globalX pc₁ pc₂ rres ares rbins abins h
    unfold lidar_to_polar_image
    rw [h]
  · intro pc rres ares rbins abins h
    simp [lidar_to_polar_image, List.length_eq_zero, h]

/-- C3 witness: two one-column clouds with different coordinates produce
the same image for a fixed global, and a one-column cloud with no global
in scope fails. -/
theorem polar_image_ignores_pc_coordinates_witness :
    lidar_to_polar_image (some [((7 : ℝ), 8, 9)]) [((1 : ℝ), 2, 3)] 1 1 4 4 =
      lidar_to_polar_image (some [((7 : ℝ), 8, 9)]) [((4 : ℝ), 5, 6)] 1 1 4 4 ∧
    lidar_to_polar_image none [((1 : ℝ), 2, 3)] 1 1 4 4 = none := by
  exact ⟨polar_image_ignores_pc_coordinates.1 _ _ _ _ _ _ _ rfl,
    polar_image_ignores_pc_coordinates.2 _ _ _ _ _ (by simp)⟩

/-! ## Height-band filter (calibrate.py lines 38-39 and 50-51) -/

/-- A point with z outside `[0, 0.5]` is skipped by the cartesian loop
(`continue` at line 39). -/
theorem cartStep_excluded (w : ℕ) (res : ℚ) (img : ℤ → ℤ → ℚ)
    (p : ℚ × ℚ × ℚ) (h : p.2.2 < 0 ∨ 1 / 2 < p.2.2) :
    cartStep w res img p = img := by
  rw [cartStep, if_pos]
  simpa using h

/-- A point with z outside `[0, 0.5]` is skipped by the polar loop
(`continue` at line 51). -/
theorem polarStep_excluded (rres ares : ℝ) (rbins abins : ℕ)
    (img : ℤ → ℤ → ℝ) (p : ℝ × ℝ × ℝ) (h : p.2.2 < 0 ∨ 1 / 2 < p.2.2) :
    polarStep rres ares rbins abins img p = img := by
  rw [polarStep, if_pos]
  simpa using h

/-- C6: a point whose z-coordinate lies outside `[0, 0.5]` writes no cell
— removing it from the cloud leaves the cartesian image unchanged, and
(running the polar rasterizer in the pipeline's configuration, where the
global `x` is the argument cloud itself) the polar image unchanged,
regardless of its x and y coordinates. -/
theorem height_band_filter_excludes :
    (∀ (w : ℕ) (res : ℚ) (l₁ l₂ : List (ℚ × ℚ × ℚ)) (p : ℚ × ℚ × ℚ),
      p.2.2 < 0 ∨ 1 / 2 < p.2.2 →
      lidar_to_cartesian_image (l₁ ++ p :: l₂) w res =
        lidar_to_cartesian_image (l₁ ++ l₂) w res) ∧
    (∀ (rres ares : ℝ) (rbins abins : ℕ) (l₁ l₂ : List (ℝ × ℝ × ℝ))
      (p : ℝ × ℝ × ℝ), p.2.2 < 0 ∨ 1 / 2 < p.2.2 →
      lidar_to_polar_image (some (l₁ ++ p :: l₂)) (l₁ ++ p :: l₂)
          rres ares rbins abins =
        lidar_to_polar_image (some (l₁ ++ l₂)) (l₁ ++ l₂)
          rres ares rbins abins) := by
  constructor
  · intro w res l₁ l₂ p h
    unfold lidar_to_cartesian_image
    rw [List.foldl_append, List.foldl_cons, cartStep_excluded _ _ _ _ h,
      ← List.foldl_append]
  · intro rres ares rbins abins l₁ l₂ p h
    have hfill : polarFill rres ares rbins abins (l₁ ++ p :: l₂) =
        polarFill rres ares rbins abins (l₁ ++ l₂) := by
      unfold polarFill
      rw [List.foldl_append, List.foldl_cons,
        polarStep_excluded _ _ _ _ _ _ h, ← List.foldl_append]
    simp only [lidar_to_polar_image, le_refl, if_true, List.take_length, hfill]

/-- C6 witness: the point `(1, 1, 1)` (z = 1 > 0.5) contributes nothing
to either image. -/
theorem height_band_filter_excludes_witness :
    lidar_to_cartesian_image [(1, 1, 1), (1, 0, 0)] 10 (1 / 2) =
      lidar_to_cartesian_image [(1, 0, 0)] 10 (1 / 2) ∧
    lidar_to_polar_image (some [((1 : ℝ), 1, 1), (1, 0, 0)])
        [((1 : ℝ), 1, 1), (1, 0, 0)] 1 1 4 4 =
      lidar_to_polar_image (some [((1 : ℝ), 0, 0)]) [((1 : ℝ), 0, 0)] 1 1 4 4 := by
  exact ⟨height_band_filter_excludes.1 10 (1 / 2) [] [(1, 0, 0)] (1, 1, 1)
      (by norm_num),
    height_band_filter_excludes.2 1 1 4 4 [] [((1 : ℝ), 0, 0)] ((1 : ℝ), 1, 1)
      (by norm_num)⟩

/-! ## Azimuth flip of the polar image (calibrate.py line 60) -/

/-- Every write of the polar loop stores 255, so a cell already at 255
stays at 255. -/
theorem polarStep_preserves_255 (rres ares : ℝ) (rbins abins : ℕ)
    (img : ℤ → ℤ → ℝ) (p : ℝ × ℝ × ℝ) (i j : ℤ) (h : img i j = 255) :
    polarStep rres ares rbins abins img p i j = 255 := by
  unfold polarStep
  split
  · exact h
  · split
    · dsimp only
      split
      · rfl
      · exact h
    · exact h

/-- A cell at 255 survives the rest of the polar fold. -/
theorem foldl_polarStep_preserves_255 (rres ares : ℝ) (rbins abins : ℕ)
    (l : List (ℝ × ℝ × ℝ)) (acc : ℤ → ℤ → ℝ) (i j : ℤ)
    (h : acc i j = 255) :
    (l.foldl (polarStep rres ares rbins abins) acc) i j = 255 := by
  induction l generalizing acc with
  | nil => exact h
  | cons q t ih =>
      exact ih _ (polarStep_preserves_255 rres ares rbins abins acc q i j h)

/-- A point of the cloud inside the height band whose bins are strictly
inside their bin counts sets its cell of the pre-flip image to 255. -/
theorem polarFill_writes_cell (rres ares : ℝ) (rbins abins : ℕ)
    (l : List (ℝ × ℝ × ℝ)) (p : ℝ × ℝ × ℝ) (hp : p ∈ l)
    (hz : 0 ≤ p.2.2 ∧ p.2.2 ≤ 1 / 2)
    (hr₀ : 0 < range_bin_of p rres) (hr₁ : range_bin_of p rres < (rbins : ℤ))
    (ha₀ : 0 < azimuth_bin_of p ares)
    (ha₁ : azimuth_bin_of p ares < (abins : ℤ)) :
    ∀ acc : ℤ → ℤ → ℝ,
      (l.foldl (polarStep rres ares rbins abins) acc)
        (azimuth_bin_of p ares) (range_bin_of p rres) = 255 := by
  induction l with
  | nil => cases hp
  | cons q t ih =>
      intro acc
      rcases List.mem_cons.1 hp with hq | ht
      · subst hq
        rw [List.foldl_cons]
        apply foldl_polarStep_preserves_255
        unfold polarStep
        rw [if_neg, if_pos ⟨hr₀, hr₁, ha₀, ha₁⟩]
        · simp
        · rw [neg_zero]
          push_neg
          exact ⟨hz.1, hz.2⟩
      · rw [List.foldl_cons]
        exact ih ht _

/-- C7: the polar image returned for the pipeline's configuration (the
global `x` is the argument cloud) is the pre-flip accumulation with its
rows reversed in azimuth (`npFlip0`, output row `i` reads raw row
`abins - 1 - i`), and a point of the cloud binned to azimuth bin `a` and
range bin `r`, both strictly inside their counts, yields intensity 255 at
row `abins - 1 - a`, column `r` of the returned image. -/
theorem polar_image_is_azimuth_flipped (x : List (ℝ × ℝ × ℝ))
    (rres ares : ℝ) (rbins abins : ℕ) (p : ℝ × ℝ × ℝ) (hp : p ∈ x)
    (hz : 0 ≤ p.2.2 ∧ p.2.2 ≤ 1 / 2)
    (hr₀ : 0 < range_bin_of p rres) (hr₁ : range_bin_of p rres < (rbins : ℤ))
    (ha₀ : 0 < azimuth_bin_of p ares)
    (ha₁ : azimuth_bin_of p ares < (abins : ℤ)) :
    lidar_to_polar_image (some x) x rres ares rbins abins =
      some (npFlip0 abins (polarFill rres ares rbins abins x)) ∧
    npFlip0 abins (polarFill rres ares rbins abins x)
      ((abins : ℤ) - 1 - azimuth_bin_of p ares) (range_bin_of p rres) = 255 := by
  constructor
  · simp [lidar_to_polar_image, List.take_length]
  · unfold npFlip0
    have harg : (abins : ℤ) - 1 - ((abins : ℤ) - 1 - azimuth_bin_of p ares) =
        azimuth_bin_of p ares := by ring
    rw [harg]
    exact polarFill_writes_cell rres ares rbins abins x p hp hz
      hr₀ hr₁ ha₀ ha₁ _

/-- C7 witness: the point `(0, 1, 0)` with range resolution `1/2` and
azimuth resolution `π/4` falls in range bin 2 and azimuth bin 2 of a
4×4 polar grid, and the returned image holds 255 at the flipped row
`4 - 1 - 2 = 1`, column 2. -/
theorem polar_image_is_azimuth_flipped_witness :
    lidar_to_polar_image (some [((0 : ℝ), 1, 0)]) [((0 : ℝ), 1, 0)]
        (1 / 2) (Real.pi / 4) 4 4 =
      some (npFlip0 4 (polarFill (1 / 2) (Real.pi / 4) 4 4 [((0 : ℝ), 1, 0)])) ∧
    npFlip0 4 (polarFill (1 / 2) (Real.pi / 4) 4 4 [((0 : ℝ), 1, 0)]) 1 2 =
      255 := by
  have hr : range_bin_of ((0 : ℝ), 1, 0) (1 / 2) = 2 := by
    have h1 : pointRange ((0 : ℝ), 1, 0) = 1 := by simp [pointRange]
    rw [range_bin_of, h1]
    norm_num
    exact truncR_eq _ 2 (by norm_num) (by norm_num) (by norm_num)
  have ha : azimuth_bin_of ((0 : ℝ), 1, 0) (Real.pi / 4) = 2 := by
    have h1 : arctan2 (1 : ℝ) 0 = Real.pi / 2 := by
      rw [arctan2, show ((⟨0, 1⟩ : ℂ)) = Complex.I from rfl, Complex.arg_I]
    have h2 : pointAzimuth ((0 : ℝ), 1, 0) = Real.pi / 2 := by
      rw [pointAzimuth]
      simp only [h1]
      rw [if_neg (not_lt.2 (by positivity))]
    rw [azimuth_bin_of, h2]
    have h3 : Real.pi / 2 / (Real.pi / 4) = 2 := by
      field_simp
      ring
    rw [h3]
    exact truncR_eq _ 2 (by norm_num) (by norm_num) (by norm_num)
  have := polar_image_is_azimuth_flipped [((0 : ℝ), 1, 0)] (1 / 2)
    (Real.pi / 4) 4 4 ((0 : ℝ), 1, 0) (by simp) (by norm_num)
    (by rw [hr]; norm_num) (by rw [hr]; norm_num)
    (by rw [ha]; norm_num) (by rw [ha]; norm_num)
  rw [hr, ha] at this
  convert this using 3

/-! ## Yaw rotation matrix (calibrate.py lines 20-24)

`get_rotation(theta)` starts from `np.identity(3)` and overwrites the
top-left 2×2 block with `[[cos θ, sin θ], [-sin θ, cos θ]]`. -/

/-- Embeds `get_rotation`: the 3×3 identity with its top-left 2×2 block
replaced by `[[cos θ, sin θ], [-sin θ, cos θ]]`. -/
noncomputable def get_rotation (θ : ℝ) : Matrix (Fin 3) (Fin 3) ℝ :=
  Matrix.of fun i j =>
    if h : i.val < 2 ∧ j.val < 2 then
      ![![Real.cos θ, Real.sin θ], ![-Real.sin θ, Real.cos θ]]
        ⟨i.val, h.1⟩ ⟨j.val, h.2⟩
    else (1 : Matrix (Fin 3) (Fin 3) ℝ) i j

/-- The entries of `get_rotation` written as one 3×3 literal. -/
theorem get_rotation_explicit (θ : ℝ) :
    get_rotation θ =
      Matrix.of ![![Real.cos θ, Real.sin θ, 0],
        ![-Real.sin θ, Real.cos θ, 0], ![0, 0, 1]] := by
  ext i j
  fin_cases i <;> fin_cases j <;>
    simp [get_rotation, Matrix.one_apply, Matrix.vecHead, Matrix.vecTail]

/-- C8: for every angle θ the matrix returned by `get_rotation` is
orthogonal (its transpose times itself is the 3×3 identity),
`get_rotation 0` is the identity, and the matrix equals the identity with
its top-left 2×2 block replaced by `[[cos θ, sin θ], [-sin θ, cos θ]]`
(spelled out as the full 3×3 literal). -/
theorem get_rotation_orthogonal (θ : ℝ) :
    (get_rotation θ).transpose * get_rotation θ = 1 ∧
    get_rotation 0 = 1 ∧
    get_rotation θ =
      Matrix.of ![![Real.cos θ, Real.sin θ, 0],
        ![-Real.sin θ, Real.cos θ, 0], ![0, 0, 1]] := by
  refine ⟨?_, ?_, get_rotation_explicit θ⟩
  · rw [get_rotation_explicit]
    ext i j
    fin_cases i <;> fin_cases j <;>
      simp [Matrix.mul_apply, Fin.sum_univ_three, Matrix.one_apply,
        Matrix.transpose_apply, Matrix.vecHead, Matrix.vecTail] <;>
      nlinarith [Real.sin_sq_add_cos_sq θ]
  · rw [get_rotation_explicit]
    ext i j
    fin_cases i <;> fin_cases j <;>
      simp [Matrix.one_apply, Matrix.vecHead, Matrix.vecTail]

/-! ## Rotation candidate and folding (calibrate.py lines 155-158)

`rotation = rotation_index * azimuth_step` with
`azimuth_step = 2π / (rows of the polar image)` (after the upsampling
division at line 117), then `if rotation > np.pi: rotation = 2*np.pi -
rotation`. -/

/-- Embeds line 156: the candidate rotation for azimuth peak index `i` on
a polar image with `rows` azimuth rows. -/
noncomputable def candidate_rotation (i rows : ℕ) : ℝ :=
  (i : ℝ) * (2 * Real.pi / (rows : ℝ))

/-- Embeds lines 157-158: fold a candidate rotation exceeding π. -/
noncomputable def fold_rotation (candidate : ℝ) : ℝ :=
  if candidate > Real.pi then 2 * Real.pi - candidate else candidate

/-- C5: for a peak index `0 ≤ i < rows` the candidate `i * (2π/rows)`
lies in `[0, 2π)`; the reported rotation is the candidate when the
candidate is at most π and `2π - candidate` when it exceeds π; and the
reported rotation always lies in `(-π, π]`. -/
theorem fold_rotation_bounds (i rows : ℕ) (h : i < rows) :
    (0 ≤ candidate_rotation i rows ∧ candidate_rotation i rows < 2 * Real.pi) ∧
    (candidate_rotation i rows ≤ Real.pi →
      fold_rotation (candidate_rotation i rows) = candidate_rotation i rows) ∧
    (Real.pi < candidate_rotation i rows →
      fold_rotation (candidate_rotation i rows) =
        2 * Real.pi - candidate_rotation i rows) ∧
    (-Real.pi < fold_rotation (candidate_rotation i rows) ∧
      fold_rotation (candidate_rotation i rows) ≤ Real.pi) := by
  have hrows : 0 < rows := lt_of_le_of_lt (Nat.zero_le i) h
  have hrowsR : (0 : ℝ) < (rows : ℝ) := by exact_mod_cast hrows
  have hstep : (0 : ℝ) < 2 * Real.pi / (rows : ℝ) :=
    div_pos (by positivity) hrowsR
  have hiR : (i : ℝ) < (rows : ℝ) := by exact_mod_cast h
  have h0 : 0 ≤ candidate_rotation i rows := by
    unfold candidate_rotation
    positivity
  have h2π : candidate_rotation i rows < 2 * Real.pi := by
    unfold candidate_rotation
    calc (i : ℝ) * (2 * Real.pi / (rows : ℝ))
        < (rows : ℝ) * (2 * Real.pi / (rows : ℝ)) :=
          mul_lt_mul_of_pos_right hiR hstep
      _ = 2 * Real.pi := by field_simp
  refine ⟨⟨h0, h2π⟩, ?_, ?_, ?_⟩
  · intro hle
    rw [fold_rotation, if_neg (not_lt.2 hle)]
  · intro hgt
    rw [fold_rotation, if_pos hgt]
  · rw [fold_rotation]
    split
    · constructor
      · nlinarith [Real.pi_pos]
      · linarith
    · constructor
      · nlinarith [Real.pi_pos]
      · linarith [not_lt.1 (by assumption : ¬candidate_rotation i rows > Real.pi)]

/-- C5 witness: index 1 of 4 azimuth rows gives candidate `π/2 ≤ π`,
reported unchanged and inside `(-π, π]`. -/
theorem fold_rotation_bounds_witness :
    1 < 4 ∧
    ((0 ≤ candidate_rotation 1 4 ∧ candidate_rotation 1 4 < 2 * Real.pi) ∧
    (candidate_rotation 1 4 ≤ Real.pi →
      fold_rotation (candidate_rotation 1 4) = candidate_rotation 1 4) ∧
    (Real.pi < candidate_rotation 1 4 →
      fold_rotation (candidate_rotation 1 4) =
        2 * Real.pi - candidate_rotation 1 4) ∧
    (-Real.pi < fold_rotation (candidate_rotation 1 4) ∧
      fold_rotation (candidate_rotation 1 4) ≤ Real.pi)) :=
  ⟨by norm_num, fold_rotation_bounds 1 4 (by norm_num)⟩

/-! ## Closest-frame lookup (calibrate.py lines 63-67)

`get_closest_frame(query_time, target_times, targets)` computes
`closest = np.argmin(np.abs(times - query_time))`, asserts
`np.abs(query_time - times[closest]) < 1.0`, and returns
`targets[closest]`.  `np.argmin` returns the first index attaining the
minimum.  An assertion failure is embedded as `none`. -/

/-- Minimum of a list (used only beneath `np_argmin` on nonempty lists). -/
def listMin : List ℚ → ℚ
  | [] => 0
  | [a] => a
  | a :: b :: t => min a (listMin (b :: t))

/-- Embeds `np.argmin`: the first index of the minimum element. -/
def np_argmin : List ℚ → ℕ
  | [] => 0
  | [_] => 0
  | a :: b :: t => if a ≤ listMin (b :: t) then 0 else np_argmin (b :: t) + 1

theorem listMin_cons_cons (a b : ℚ) (t : List ℚ) :
    listMin (a :: b :: t) = min a (listMin (b :: t)) := rfl

theorem np_argmin_cons_cons (a b : ℚ) (t : List ℚ) :
    np_argmin (a :: b :: t) =
      if a ≤ listMin (b :: t) then 0 else np_argmin (b :: t) + 1 := rfl

/-- The list minimum bounds every entry. -/
theorem listMin_le (l : List ℚ) :
    ∀ k, k < l.length → listMin l ≤ l.getD k 0 := by
  induction l with
  | nil => intro k hk; simp at hk
  | cons a t ih =>
      intro k hk
      cases t with
      | nil =>
          cases k with
          | zero => simp [listMin]
          | succ k => simp at hk
      | cons b t2 =>
          cases k with
          | zero =>
              rw [listMin_cons_cons]
              simp
          | succ k =>
              rw [listMin_cons_cons]
              have hgd : (a :: b :: t2).getD (k + 1) 0 = (b :: t2).getD k 0 := by
                simp [List.getD_cons_succ]
              rw [hgd]
              exact le_trans (min_le_right _ _) (ih k (by simpa using hk))

/-- `np_argmin` of a nonempty list is a valid index. -/
theorem np_argmin_lt (l : List ℚ) (h : l ≠ []) : np_argmin l < l.length := by
  induction l with
  | nil => exact absurd rfl h
  | cons a t ih =>
      cases t with
      | nil => simp [np_argmin]
      | cons b t2 =>
          rw [np_argmin_cons_cons]
          split
          · simp
          · have hlt := ih (by simp)
            simpa [Nat.succ_lt_succ_iff] using hlt

/-- `np_argmin` points at the minimum. -/
theorem np_argmin_getD (l : List ℚ) (h : l ≠ []) :
    l.getD (np_argmin l) 0 = listMin l := by
  induction l with
  | nil => exact absurd rfl h
  | cons a t ih =>
      cases t with
      | nil => simp [np_argmin, listMin]
      | cons b t2 =>
          rw [np_argmin_cons_cons, listMin_cons_cons]
          split
          · rename_i hle
            simpa using (min_eq_left hle).symm
          · rename_i hgt
            have h1 : (a :: b :: t2).getD (np_argmin (b :: t2) + 1) 0 =
                (b :: t2).getD (np_argmin (b :: t2)) 0 := by
              simp [List.getD_cons_succ]
            rw [h1, ih (by simp)]
            exact (min_eq_right (le_of_lt (lt_of_not_le hgt))).symm

/-- Embeds `get_closest_frame` (lines 63-67); an assertion failure is
`none`. -/
def get_closest_frame {α : Type} (query_time : ℚ) (target_times : List ℚ)
    (targets : List α) : Option α :=
  if |query_time -
      target_times.getD
        (np_argmin (target_times.map fun t => |t - query_time|)) 0| < 1 then
    targets.get? (np_argmin (target_times.map fun t => |t - query_time|))
  else none

/-- C10: for a nonempty list of target times (with at least as many
targets), the lookup fails with an assertion error exactly when no
candidate time lies strictly within 1 time unit of the query, and any
returned value is the target at an index minimizing the absolute time
difference, that difference being below 1. -/
theorem get_closest_frame_spec {α : Type} (q : ℚ) (ts : List ℚ)
    (targets : List α) (hne : ts ≠ []) (hlen : ts.length ≤ targets.length) :
    (get_closest_frame q ts targets = none ↔
      ∀ k, k < ts.length → 1 ≤ |ts.getD k 0 - q|) ∧
    (∀ a, get_closest_frame q ts targets = some a →
      ∃ j, j < ts.length ∧
        (∀ k, k < ts.length → |ts.getD j 0 - q| ≤ |ts.getD k 0 - q|) ∧
        |ts.getD j 0 - q| < 1 ∧ targets.get? j = some a) := by
  have hdsne : (ts.map fun t => |t - q|) ≠ [] := by
    simpa using hne
  have hdlen : (ts.map fun t => |t - q|).length = ts.length := by simp
  have hjlt : np_argmin (ts.map fun t => |t - q|) < ts.length := by
    rw [← hdlen]; exact np_argmin_lt _ hdsne
  have hgetd : ∀ k, k < ts.length →
      (ts.map fun t => |t - q|).getD k 0 = |ts.getD k 0 - q| := by
    intro k hk
    rw [List.getD_eq_getElem _ _ (by simpa using hk), List.getElem_map,
      ← List.getD_eq_getElem _ _ hk]
  have hmin : ∀ k, k < ts.length →
      |ts.getD (np_argmin (ts.map fun t => |t - q|)) 0 - q| ≤
        |ts.getD k 0 - q| := by
    intro k hk
    rw [← hgetd _ hjlt, ← hgetd k hk, np_argmin_getD _ hdsne]
    exact listMin_le _ k (by simpa using hk)
  have hsome : targets.get? (np_argmin (ts.map fun t => |t - q|)) ≠ none := by
    rw [ne_eq, List.get?_eq_none]
    push_neg
    exact lt_of_lt_of_le hjlt hlen
  constructor
  · constructor
    · intro hnone k hk
      rw [get_closest_frame] at hnone
      by_cases hg : |q - ts.getD (np_argmin (ts.map fun t => |t - q|)) 0| < 1
      · rw [if_pos hg] at hnone
        exact absurd hnone hsome
      · rw [abs_sub_comm] at hg
        exact le_trans (not_lt.1 hg) (hmin k hk)
    · intro hall
      rw [get_closest_frame, if_neg]
      rw [abs_sub_comm, not_lt]
      exact hall _ hjlt
  · intro a ha
    rw [get_closest_frame] at ha
    by_cases hg : |q - ts.getD (np_argmin (ts.map fun t => |t - q|)) 0| < 1
    · rw [if_pos hg] at ha
      exact ⟨np_argmin (ts.map fun t => |t - q|), hjlt, hmin,
        by rwa [abs_sub_comm] at hg, ha⟩
    · rw [if_neg hg] at ha
      exact absurd ha (by simp)

/-- C10 witness: with query 0, times `[5, 1/2]` and targets `[10, 20]`,
the candidate `1/2` lies within 1 unit, so no assertion failure. -/
theorem get_closest_frame_spec_witness :
    get_closest_frame (0 : ℚ) [5, 1 / 2] ([10, 20] : List ℕ) ≠ none := by
  intro hnone
  have h := (get_closest_frame_spec 0 [5, 1 / 2] [10, 20]
    (by simp) (by norm_num)).1.mp hnone 1 (by norm_num)
  norm_num [List.getD_cons_succ, List.getD_cons_zero] at h
  rw [abs_of_pos (by norm_num : (0 : ℚ) < 1 / 2)] at h
  norm_num at h

/-! ## Phase correlation (calibrate.py lines 149-155 and 172-183)

The registration computes `p = fft2(B) * conj(fft2(A))`, normalizes
`p = p / abs(p)` **without any zero guard**, inverse-transforms, takes the
magnitude, and reads the coordinates of the first cell equal to
`np.amax(p)` (row-major, via `np.where(p == np.amax(p))`).

Embedding choices:
* images are `ZMod M → ZMod N → ℝ` so that circular shifts are clean;
* the 2-D DFT is the exact complex exponential sum (numpy's definition);
* an IEEE `0/0 = NaN` at any bin poisons the whole inverse transform and
  makes `np.where(p == np.amax(p))` empty, so the script dies with an
  `IndexError`; `registerShift` therefore returns `none` exactly when
  some bin of the cross-power spectrum is zero. -/

/-- The character `exp(2πi t / N)` underlying the DFT. -/
noncomputable def ch (N : ℕ) (t : ℤ) : ℂ :=
  Complex.exp (2 * Real.pi * Complex.I * t / N)

theorem ch_add (N : ℕ) (a b : ℤ) : ch N (a + b) = ch N a * ch N b := by
  rw [ch, ch, ch, ← Complex.exp_add]
  congr 1
  push_cast
  ring

theorem ch_zero (N : ℕ) : ch N 0 = 1 := by simp [ch]

theorem ch_N_mul (N : ℕ) (hN : N ≠ 0) (k : ℤ) : ch N ((N : ℤ) * k) = 1 := by
  rw [ch]
  have hNC : (N : ℂ) ≠ 0 := Nat.cast_ne_zero.2 hN
  have harg : (2 * (Real.pi : ℂ) * Complex.I * ((((N : ℤ) * k : ℤ) : ℂ)) / (N : ℂ)) =
      (k : ℂ) * (2 * (Real.pi : ℂ) * Complex.I) := by
    field_simp
    ring
  rw [harg, Complex.exp_int_mul_two_pi_mul_I]

theorem ch_congr (N : ℕ) (hN : N ≠ 0) (a b : ℤ) (h : (N : ℤ) ∣ a - b) :
    ch N a = ch N b := by
  obtain ⟨u, hu⟩ := h
  have ha : a = b + (N : ℤ) * u := by linarith
  rw [ha, ch_add, ch_N_mul N hN, mul_one]

theorem ch_pow (N : ℕ) (c : ℤ) (i : ℕ) : ch N (c * i) = ch N c ^ i := by
  induction i with
  | zero => simp [ch_zero]
  | succ i ih =>
      have harg : c * ((i : ℕ) + 1 : ℕ) = c * i + c := by push_cast; ring
      rw [harg, ch_add, ih, pow_succ]

theorem ch_eq_one_iff (N : ℕ) (hN : N ≠ 0) (t : ℤ) :
    ch N t = 1 ↔ (N : ℤ) ∣ t := by
  constructor
  · intro h
    rw [ch, Complex.exp_eq_one_iff] at h
    obtain ⟨k, hk⟩ := h
    have hNC : (N : ℂ) ≠ 0 := Nat.cast_ne_zero.2 hN
    have hpi : (Real.pi : ℂ) ≠ 0 := Complex.ofReal_ne_zero.2 Real.pi_ne_zero
    field_simp at hk
    have hcancel : (2 * (Real.pi : ℂ) * Complex.I) ≠ 0 :=
      mul_ne_zero (mul_ne_zero two_ne_zero hpi) Complex.I_ne_zero
    have ht : (t : ℂ) = ((k * N : ℤ) : ℂ) := by
      apply mul_left_cancel₀ hcancel
      push_cast
      linear_combination hk
    have ht2 : t = k * N := by exact_mod_cast ht
    exact ⟨k, by linarith⟩
  · rintro ⟨k, rfl⟩
    exact ch_N_mul N hN k

theorem ch_abs (N : ℕ) (t : ℤ) : Complex.abs (ch N t) = 1 := by
  rw [ch]
  have harg : (2 * (Real.pi : ℂ) * Complex.I * (t : ℂ) / (N : ℂ)) =
      (((2 * Real.pi * t / N : ℝ)) : ℂ) * Complex.I := by
    push_cast
    ring
  rw [harg, Complex.abs_exp_ofReal_mul_I]

theorem ch_ne_zero (N : ℕ) (t : ℤ) : ch N t ≠ 0 := Complex.exp_ne_zero _

theorem zmod_val_sum (N : ℕ) [NeZero N] (f : ℕ → ℂ) :
    ∑ n : ZMod N, f n.val = ∑ i ∈ Finset.range N, f i := by
  apply Finset.sum_nbij' (fun n : ZMod N => n.val) (fun i : ℕ => (i : ZMod N))
  · intro a _
    exact Finset.mem_range.2 (ZMod.val_lt a)
  · intro i _
    exact Finset.mem_univ _
  · intro a _
    exact ZMod.natCast_rightInverse a
  · intro i hi
    exact ZMod.val_cast_of_lt (Finset.mem_range.1 hi)
  · intro a _
    rfl

/-- Orthogonality of the DFT characters: summed over one axis, a
character ray vanishes unless its frequency is a multiple of the size. -/
theorem ch_sum (N : ℕ) [NeZero N] (c : ℤ) :
    ∑ n : ZMod N, ch N (c * (n.val : ℤ)) =
      if (N : ℤ) ∣ c then (N : ℂ) else 0 := by
  have hN : N ≠ 0 := NeZero.ne N
  rw [zmod_val_sum N (fun i => ch N (c * (i : ℤ)))]
  by_cases hdvd : (N : ℤ) ∣ c
  · rw [if_pos hdvd]
    have hone : ch N c = 1 := (ch_eq_one_iff N hN c).2 hdvd
    have hall : ∀ i ∈ Finset.range N, ch N (c * (i : ℤ)) = 1 := by
      intro i _
      rw [ch_pow, hone, one_pow]
    rw [Finset.sum_congr rfl hall]
    simp
  · rw [if_neg hdvd]
    have hne1 : ch N c ≠ 1 := fun h => hdvd ((ch_eq_one_iff N hN c).1 h)
    have hsum : ∑ i ∈ Finset.range N, ch N (c * (i : ℤ)) =
        ∑ i ∈ Finset.range N, ch N c ^ i := by
      apply Finset.sum_congr rfl
      intro i _
      exact ch_pow N c i
    rw [hsum, geom_sum_eq hne1]
    have hNpow : ch N c ^ N = 1 := by
      rw [← ch_pow]
      have hc : c * (N : ℤ) = (N : ℤ) * c := by ring
      rw [hc]
      exact ch_N_mul N hN c
    rw [hNpow]
    simp

theorem ch_neg_mul_val_add (N : ℕ) [NeZero N] (c : ℕ) (x y : ZMod N) :
    ch N (-((c : ℤ) * ((x + y).val : ℤ))) =
      ch N (-((c : ℤ) * (x.val : ℤ))) * ch N (-((c : ℤ) * (y.val : ℤ))) := by
  rw [← ch_add]
  apply ch_congr N (NeZero.ne N)
  have hval : (((x + y).val : ℕ) : ℤ) = ((x.val + y.val : ℕ) : ℤ) % (N : ℤ) := by
    rw [ZMod.val_add]
    push_cast
    rfl
  rw [hval]
  refine ⟨c * (((x.val : ℤ) + (y.val : ℤ)) / (N : ℤ)), ?_⟩
  rw [Int.emod_def]
  push_cast
  ring

/-- Embeds `np.fft.fft2`: the exact 2-D discrete Fourier transform. -/
noncomputable def dft2 {M N : ℕ} [NeZero M] [NeZero N]
    (a : ZMod M → ZMod N → ℂ) (k : ZMod M) (l : ZMod N) : ℂ :=
  ∑ m : ZMod M, ∑ n : ZMod N,
    a m n * ch M (-((k.val : ℤ) * (m.val : ℤ))) *
      ch N (-((l.val : ℤ) * (n.val : ℤ)))

/-- Embeds `np.fft.ifft2`: the inverse transform with its `1/(M*N)`
normalization. -/
noncomputable def idft2 {M N : ℕ} [NeZero M] [NeZero N]
    (a : ZMod M → ZMod N → ℂ) (m : ZMod M) (n : ZMod N) : ℂ :=
  1 / ((M : ℂ) * (N : ℂ)) * ∑ k : ZMod M, ∑ l : ZMod N,
    a k l * ch M ((k.val : ℤ) * (m.val : ℤ)) * ch N ((l.val : ℤ) * (n.val : ℤ))

/-- A circular shift of an occupancy image by `(s, t)`: row `m + s`,
column `n + t` of the result holds row `m`, column `n` of the input. -/
def cshift {M N : ℕ} (a : ZMod M → ZMod N → ℝ) (s : ZMod M) (t : ZMod N) :
    ZMod M → ZMod N → ℝ :=
  fun m n => a (m - s) (n - t)

/-- The DFT shift theorem for the embedded transform. -/
theorem dft2_shift {M N : ℕ} [NeZero M] [NeZero N]
    (a : ZMod M → ZMod N → ℂ) (s : ZMod M) (t : ZMod N)
    (k : ZMod M) (l : ZMod N) :
    dft2 (fun m n => a (m - s) (n - t)) k l =
      ch M (-((k.val : ℤ) * (s.val : ℤ))) *
        ch N (-((l.val : ℤ) * (t.val : ℤ))) * dft2 a k l := by
  unfold dft2
  calc
    ∑ m : ZMod M, ∑ n : ZMod N,
        a (m - s) (n - t) * ch M (-((k.val : ℤ) * (m.val : ℤ))) *
          ch N (-((l.val : ℤ) * (n.val : ℤ)))
      = ∑ m : ZMod M, ∑ n : ZMod N,
          a m n * ch M (-((k.val : ℤ) * ((m + s).val : ℤ))) *
            ch N (-((l.val : ℤ) * ((n + t).val : ℤ))) := by
        rw [← Equiv.sum_comp (Equiv.addRight s)
          (fun m => ∑ n : ZMod N,
            a (m - s) (n - t) * ch M (-((k.val : ℤ) * (m.val : ℤ))) *
              ch N (-((l.val : ℤ) * (n.val : ℤ))))]
        apply Finset.sum_congr rfl
        intro m _
        rw [← Equiv.sum_comp (Equiv.addRight t)
          (fun n => a (Equiv.addRight s m - s) (n - t) *
            ch M (-((k.val : ℤ) * ((Equiv.addRight s m).val : ℤ))) *
              ch N (-((l.val : ℤ) * (n.val : ℤ))))]
        apply Finset.sum_congr rfl
        intro n _
        simp [Equiv.coe_addRight, add_sub_cancel_right]
    _ = ∑ m : ZMod M, ∑ n : ZMod N,
          (a m n * ch M (-((k.val : ℤ) * (m.val : ℤ))) *
            ch N (-((l.val : ℤ) * (n.val : ℤ)))) *
          (ch M (-((k.val : ℤ) * (s.val : ℤ))) *
            ch N (-((l.val : ℤ) * (t.val : ℤ)))) := by
        apply Finset.sum_congr rfl
        intro m _
        apply Finset.sum_congr rfl
        intro n _
        rw [ch_neg_mul_val_add M k.val m s, ch_neg_mul_val_add N l.val n t]
        ring
    _ = ch M (-((k.val : ℤ) * (s.val : ℤ))) *
          ch N (-((l.val : ℤ) * (t.val : ℤ))) *
        ∑ m : ZMod M, ∑ n : ZMod N,
          a m n * ch M (-((k.val : ℤ) * (m.val : ℤ))) *
            ch N (-((l.val : ℤ) * (n.val : ℤ))) := by
        rw [Finset.mul_sum]
        apply Finset.sum_congr rfl
        intro m _
        rw [Finset.mul_sum]
        apply Finset.sum_congr rfl
        intro n _
        ring

theorem zmod_dvd_val_sub_iff (M : ℕ) [NeZero M] (m s : ZMod M) :
    ((M : ℤ) ∣ ((m.val : ℤ) - (s.val : ℤ))) ↔ m = s := by
  constructor
  · intro hdvd
    have hm := ZMod.val_lt m
    have hs := ZMod.val_lt s
    have hzero : (m.val : ℤ) - (s.val : ℤ) = 0 := by
      apply Int.eq_zero_of_dvd_of_natAbs_lt_natAbs hdvd
      omega
    have hval : m.val = s.val := by omega
    exact ZMod.val_injective M hval
  · rintro rfl
    simp

/-- The inverse transform of the pure phase ramp left by normalizing the
cross-power spectrum of an image against its `(s, t)`-shift is the
delta at `(s, t)`. -/
theorem idft2_ramp {M N : ℕ} [NeZero M] [NeZero N]
    (s : ZMod M) (t : ZMod N) (m : ZMod M) (n : ZMod N) :
    idft2 (fun k l => ch M (-((k.val : ℤ) * (s.val : ℤ))) *
        ch N (-((l.val : ℤ) * (t.val : ℤ)))) m n =
      if m = s ∧ n = t then 1 else 0 := by
  simp only [idft2]
  have hterm : ∀ (k : ZMod M) (l : ZMod N),
      (ch M (-((k.val : ℤ) * (s.val : ℤ))) * ch N (-((l.val : ℤ) * (t.val : ℤ)))) *
          ch M ((k.val : ℤ) * (m.val : ℤ)) * ch N ((l.val : ℤ) * (n.val : ℤ)) =
        ch M (((m.val : ℤ) - (s.val : ℤ)) * (k.val : ℤ)) *
          ch N (((n.val : ℤ) - (t.val : ℤ)) * (l.val : ℤ)) := by
    intro k l
    have hM : (((m.val : ℤ) - (s.val : ℤ)) * (k.val : ℤ)) =
        (-((k.val : ℤ) * (s.val : ℤ))) + (k.val : ℤ) * (m.val : ℤ) := by ring
    have hN : (((n.val : ℤ) - (t.val : ℤ)) * (l.val : ℤ)) =
        (-((l.val : ℤ) * (t.val : ℤ))) + (l.val : ℤ) * (n.val : ℤ) := by ring
    rw [hM, hN, ch_add, ch_add]
    ring
  have hsum : ∑ k : ZMod M, ∑ l : ZMod N,
      (ch M (-((k.val : ℤ) * (s.val : ℤ))) * ch N (-((l.val : ℤ) * (t.val : ℤ)))) *
          ch M ((k.val : ℤ) * (m.val : ℤ)) * ch N ((l.val : ℤ) * (n.val : ℤ)) =
      (∑ k : ZMod M, ch M (((m.val : ℤ) - (s.val : ℤ)) * (k.val : ℤ))) *
        (∑ l : ZMod N, ch N (((n.val : ℤ) - (t.val : ℤ)) * (l.val : ℤ))) := by
    rw [Finset.sum_mul_sum]
    apply Finset.sum_congr rfl
    intro k _
    apply Finset.sum_congr rfl
    intro l _
    exact hterm k l
  rw [hsum, ch_sum M ((m.val : ℤ) - (s.val : ℤ)),
    ch_sum N ((n.val : ℤ) - (t.val : ℤ))]
  have hMC : (M : ℂ) ≠ 0 := Nat.cast_ne_zero.2 (NeZero.ne M)
  have hNC : (N : ℂ) ≠ 0 := Nat.cast_ne_zero.2 (NeZero.ne N)
  by_cases h1 : m = s
  · by_cases h2 : n = t
    · rw [if_pos ((zmod_dvd_val_sub_iff M m s).2 h1),
        if_pos ((zmod_dvd_val_sub_iff N n t).2 h2), if_pos ⟨h1, h2⟩]
      field_simp
    · rw [if_neg (fun hd => h2 ((zmod_dvd_val_sub_iff N n t).1 hd))]
      simp [h2]
  · rw [if_neg (fun hd => h1 ((zmod_dvd_val_sub_iff M m s).1 hd))]
    simp [h1]

/-- Embeds line 151 (and 174): the raw cross-power spectrum
`fft2(B) * conj(fft2(A))` of two real occupancy images (the radar image
is `A` = `f1`, the lidar image is `B` = `f2`). -/
noncomputable def cross_power {M N : ℕ} [NeZero M] [NeZero N]
    (A B : ZMod M → ZMod N → ℝ) (k : ZMod M) (l : ZMod N) : ℂ :=
  dft2 (fun m n => ((B m n : ℝ) : ℂ)) k l *
    starRingEnd ℂ (dft2 (fun m n => ((A m n : ℝ) : ℂ)) k l)

/-- Embeds the elementwise `p / abs(p)` of line 152 (and 175) on one bin
under IEEE semantics: a zero-magnitude bin gives `0/0 = NaN`, embedded as
`none`; there is no guard in the code. -/
noncomputable def np_divide_self_abs (z : ℂ) : Option ℂ :=
  if Complex.abs z = 0 then none
  else some (z / ((Complex.abs z : ℝ) : ℂ))

/-- Embeds lines 152-154 when no bin is degenerate: normalize the
cross-power spectrum, inverse-transform, and take the magnitude. -/
noncomputable def corr_surface {M N : ℕ} [NeZero M] [NeZero N]
    (A B : ZMod M → ZMod N → ℝ) (m : ZMod M) (n : ZMod N) : ℝ :=
  Complex.abs (idft2 (fun k l => cross_power A B k l /
    ((Complex.abs (cross_power A B k l) : ℝ) : ℂ)) m n)

/-- The row-major rank of a cell, the order in which `np.where` lists
matches. -/
def cellRank {M N : ℕ} (c : ZMod M × ZMod N) : ℕ := c.1.val * N + c.2.val

/-- Embeds `np.where(p == np.amax(p))[0][0]` / `[1][0]`: the row-major
first cell attaining the maximum of the correlation surface. -/
noncomputable def np_argmax2 {M N : ℕ} [NeZero M] [NeZero N]
    (f : ZMod M → ZMod N → ℝ) : ZMod M × ZMod N :=
  let sup := Finset.univ.sup' Finset.univ_nonempty
    fun c : ZMod M × ZMod N => f c.1 c.2
  let best := Finset.univ.filter fun c : ZMod M × ZMod N => f c.1 c.2 = sup
  have hne : (best.image cellRank).Nonempty := by
    obtain ⟨c, _, hc⟩ := Finset.exists_mem_eq_sup' Finset.univ_nonempty
      fun c : ZMod M × ZMod N => f c.1 c.2
    exact Finset.Nonempty.image
      ⟨c, Finset.mem_filter.2 ⟨Finset.mem_univ c, hc.symm⟩⟩ _
  let r := (best.image cellRank).min' hne
  (((r / N : ℕ) : ZMod M), ((r % N : ℕ) : ZMod N))

open Classical in
/-- Embeds the whole registration of lines 149-155 (and 172-179): when
any bin of the cross-power spectrum is zero the unguarded `p / abs(p)`
produces NaN, every cell of the inverse transform becomes NaN,
`np.where(p == np.amax(p))` is empty and the script dies (`none`);
otherwise the row-major first argmax cell of the correlation surface is
returned as `(row shift, column shift)`. -/
noncomputable def registerShift {M N : ℕ} [NeZero M] [NeZero N]
    (A B : ZMod M → ZMod N → ℝ) : Option (ZMod M × ZMod N) :=
  if ∃ k l, cross_power A B k l = 0 then none
  else some (np_argmax2 (corr_surface A B))

/-- `np_argmax2` of the delta surface at `(s, t)` is `(s, t)`. -/
theorem np_argmax2_indicator {M N : ℕ} [NeZero M] [NeZero N]
    (s : ZMod M) (t : ZMod N) :
    np_argmax2 (fun m n => if m = s ∧ n = t then (1 : ℝ) else 0) = (s, t) := by
  have hval : ∀ (m : ZMod M) (n : ZMod N),
      (if m = s ∧ n = t then (1 : ℝ) else 0) ≤ 1 := by
    intro m n
    split <;> norm_num
  have hsup : Finset.univ.sup' Finset.univ_nonempty
      (fun c : ZMod M × ZMod N =>
        if c.1 = s ∧ c.2 = t then (1 : ℝ) else 0) = 1 := by
    apply le_antisymm
    · exact Finset.sup'_le _ _ fun c _ => hval c.1 c.2
    · have hle := Finset.le_sup' (f := fun c : ZMod M × ZMod N =>
        if c.1 = s ∧ c.2 = t then (1 : ℝ) else 0)
        (Finset.mem_univ (s, t))
      simpa using hle
  have hbest : (Finset.univ.filter fun c : ZMod M × ZMod N =>
      (if c.1 = s ∧ c.2 = t then (1 : ℝ) else 0) =
        Finset.univ.sup' Finset.univ_nonempty
          (fun c : ZMod M × ZMod N =>
            if c.1 = s ∧ c.2 = t then (1 : ℝ) else 0)) = {(s, t)} := by
    rw [Finset.ext_iff]
    intro c
    rw [Finset.mem_filter, Finset.mem_singleton, hsup]
    constructor
    · rintro ⟨-, hc⟩
      by_contra hne
      rw [if_neg] at hc
      · norm_num at hc
      · intro hand
        exact hne (Prod.ext hand.1 hand.2)
    · rintro rfl
      exact ⟨Finset.mem_univ _, by simp⟩
  rw [np_argmax2]
  simp only [hbest, Finset.image_singleton, Finset.min'_singleton]
  have hrank : cellRank ((s, t) : ZMod M × ZMod N) = s.val * N + t.val := rfl
  rw [hrank]
  have htlt : t.val < N := ZMod.val_lt t
  have hNpos : 0 < N := Nat.pos_of_ne_zero (NeZero.ne N)
  have hdiv : (s.val * N + t.val) / N = s.val := by
    rw [Nat.add_comm, Nat.mul_comm, Nat.add_mul_div_left _ _ hNpos,
      Nat.div_eq_of_lt htlt, Nat.zero_add]
  have hmod : (s.val * N + t.val) % N = t.val := by
    rw [Nat.mul_comm s.val N, Nat.mul_add_mod, Nat.mod_eq_of_lt htlt]
  rw [hdiv, hmod, ZMod.natCast_rightInverse s, ZMod.natCast_rightInverse t]

/-- C4 counterexample: the cross-power spectrum of two (1×1) all-zero
images has a zero-magnitude bin, and the code's unguarded `p / abs(p)`
turns it into `0/0 = NaN` (`none`) — not into a zero contribution. -/
theorem np_divide_zero_bin_is_nan :
    cross_power (M := 1) (N := 1) (fun _ _ => 0) (fun _ _ => 0) 0 0 = 0 ∧
    np_divide_self_abs
      (cross_power (M := 1) (N := 1) (fun _ _ => 0) (fun _ _ => 0) 0 0) ≠
        some 0 := by
  have hzero : cross_power (M := 1) (N := 1)
      (fun _ _ => 0) (fun _ _ => 0) 0 0 = 0 := by
    simp [cross_power, dft2]
  refine ⟨hzero, ?_⟩
  rw [hzero, np_divide_self_abs, if_pos (by simp)]
  simp

/-- C4 amended: the normalization `p / abs(p)` has no zero guard — a bin
is mapped to NaN (`none`) exactly when it is zero, in which case the
whole registration fails rather than receiving a zero contribution; on
every nonzero bin the division is well defined and produces a
unit-modulus value. -/
theorem normalization_unguarded {M N : ℕ} [NeZero M] [NeZero N]
    (A B : ZMod M → ZMod N → ℝ) :
    (∀ k l, np_divide_self_abs (cross_power A B k l) = none ↔
      cross_power A B k l = 0) ∧
    ((∃ k l, cross_power A B k l = 0) → registerShift A B = none) ∧
    (∀ k l w, np_divide_self_abs (cross_power A B k l) = some w →
      Complex.abs w = 1) := by
  refine ⟨?_, ?_, ?_⟩
  · intro k l
    constructor
    · intro h
      by_contra h0
      rw [np_divide_self_abs,
        if_neg (fun ha => h0 (by simpa using ha))] at h
      exact Option.some_ne_none _ h
    · intro h0
      rw [h0, np_divide_self_abs, if_pos (by simp)]
  · intro hex
    rw [registerShift, if_pos hex]
  · intro k l w hw
    by_cases h0 : cross_power A B k l = 0
    · rw [h0, np_divide_self_abs, if_pos (by simp)] at hw
      exact absurd hw (by simp)
    · rw [np_divide_self_abs,
        if_neg (fun ha => h0 (by simpa using ha))] at hw
      obtain rfl := (Option.some_injective _ hw).symm
      rw [map_div₀, Complex.abs_ofReal,
        abs_of_nonneg (Complex.abs.nonneg _),
        div_self (fun ha => h0 (by simpa using ha))]

/-- C4 witness: for 3×3 all-zero images the zero bin makes the
normalization NaN and the registration crash. -/
theorem normalization_unguarded_witness :
    np_divide_self_abs (cross_power (M := 3) (N := 3)
      (fun _ _ => 0) (fun _ _ => 0) 0 0) = none ∧
    registerShift (M := 3) (N := 3) (fun _ _ => 0) (fun _ _ => 0) = none := by
  have h := normalization_unguarded (M := 3) (N := 3)
    (fun _ _ => 0) (fun _ _ => 0)
  have hzero : cross_power (M := 3) (N := 3)
      (fun _ _ => 0) (fun _ _ => 0) 0 0 = 0 := by
    simp [cross_power, dft2]
  exact ⟨(h.1 0 0).2 hzero, h.2.1 ⟨0, 0, hzero⟩⟩

/-- C9 counterexample: the all-zero image is its own circular shift by
`(0, 0)`, yet the registration does not recover `(0, 0)` — every bin of
the cross-power spectrum is zero, the unguarded normalization produces
NaN, and the run dies (`none`). -/
theorem register_shift_zero_image_fails :
    cshift (fun _ _ => (0 : ℝ)) (0 : ZMod 2) (0 : ZMod 2) =
      (fun _ _ => (0 : ℝ)) ∧
    registerShift (M := 2) (N := 2) (fun _ _ => 0) (fun _ _ => 0) = none := by
  constructor
  · funext m n
    simp [cshift]
  · rw [registerShift, if_pos]
    exact ⟨0, 0, by simp [cross_power, dft2]⟩

/-- C9 amended: for every occupancy image whose DFT vanishes nowhere,
registering the image against its circular shift by `(s, t)` recovers
exactly `(s, t)` as the coordinates of the (unique) global maximum of
the correlation surface. -/
theorem register_shift_recovers {M N : ℕ} [NeZero M] [NeZero N]
    (A : ZMod M → ZMod N → ℝ) (s : ZMod M) (t : ZMod N)
    (hA : ∀ k l, dft2 (fun m n => ((A m n : ℝ) : ℂ)) k l ≠ 0) :
    registerShift A (cshift A s t) = some (s, t) := by
  have hcsh : (fun m n => ((cshift A s t m n : ℝ) : ℂ)) =
      (fun m n => (fun m' n' => ((A m' n' : ℝ) : ℂ)) (m - s) (n - t)) := rfl
  have hregroup : ∀ x y F G : ℂ, x * y * F * G = x * y * (F * G) := by
    intro x y F G
    ring
  have hcross : ∀ k l, cross_power A (cshift A s t) k l =
      ch M (-((k.val : ℤ) * (s.val : ℤ))) *
        ch N (-((l.val : ℤ) * (t.val : ℤ))) *
        ((Complex.normSq (dft2 (fun m n => ((A m n : ℝ) : ℂ)) k l) : ℝ) : ℂ) := by
    intro k l
    rw [cross_power, hcsh,
      dft2_shift (fun m' n' => ((A m' n' : ℝ) : ℂ)) s t k l, hregroup,
      Complex.mul_conj]
  have hnsne : ∀ k l, ((Complex.normSq
      (dft2 (fun m n => ((A m n : ℝ) : ℂ)) k l) : ℝ) : ℂ) ≠ 0 := by
    intro k l
    rw [ne_eq, Complex.ofReal_eq_zero, Complex.normSq_eq_zero]
    exact hA k l
  have hnz : ∀ k l, cross_power A (cshift A s t) k l ≠ 0 := by
    intro k l
    rw [hcross k l]
    exact mul_ne_zero (mul_ne_zero (ch_ne_zero M _) (ch_ne_zero N _))
      (hnsne k l)
  have habs : ∀ k l, ((Complex.abs (cross_power A (cshift A s t) k l) : ℝ) : ℂ) =
      ((Complex.normSq (dft2 (fun m n => ((A m n : ℝ) : ℂ)) k l) : ℝ) : ℂ) := by
    intro k l
    rw [hcross k l, map_mul, map_mul, ch_abs, ch_abs, Complex.abs_ofReal,
      abs_of_nonneg (Complex.normSq_nonneg _)]
    norm_num
  have hnorm : (fun k l => cross_power A (cshift A s t) k l /
      ((Complex.abs (cross_power A (cshift A s t) k l) : ℝ) : ℂ)) =
      (fun k l => ch M (-((k.val : ℤ) * (s.val : ℤ))) *
        ch N (-((l.val : ℤ) * (t.val : ℤ)))) := by
    funext k l
    rw [habs k l, hcross k l, mul_div_assoc, div_self (hnsne k l), mul_one]
  have hsurf : corr_surface A (cshift A s t) =
      fun m n => if m = s ∧ n = t then (1 : ℝ) else 0 := by
    funext m n
    rw [corr_surface, hnorm, idft2_ramp]
    split <;> simp
  rw [registerShift, if_neg, hsurf, np_argmax2_indicator]
  rintro ⟨k, l, h0⟩
  exact hnz k l h0

/-- C9 witness: two 10×10 occupancy images, a single detection at
`(0, 0)` and its copy shifted by 2 columns, register to a column shift
of 2 and a row shift of 0. -/
theorem register_shift_recovers_witness :
    registerShift (M := 10) (N := 10)
        (fun m n => if m = 0 ∧ n = 0 then (255 : ℝ) else 0)
        (cshift (fun m n => if m = 0 ∧ n = 0 then (255 : ℝ) else 0) 0 2) =
      some (0, 2) := by
  apply register_shift_recovers
  intro k l
  have hval : dft2 (fun m n =>
      (((if m = 0 ∧ n = 0 then (255 : ℝ) else 0) : ℝ) : ℂ)) k l = 255 := by
    rw [dft2]
    rw [Finset.sum_eq_single (0 : ZMod 10)]
    · rw [Finset.sum_eq_single (0 : ZMod 10)]
      · simp [ch_zero, ZMod.val_zero]
      · intro b _ hb
        simp [hb]
      · intro h
        exact absurd (Finset.mem_univ _) h
    · intro m _ hm
      apply Finset.sum_eq_zero
      intro n _
      simp [hm]
    · intro h
      exact absurd (Finset.mem_univ _) h
  rw [hval]
  norm_num

